import Mathlib

/-!
Shallow embedding of the two algorithmic components of the
BayesianAstronomy notebooks:

* the Metropolis-Hastings sampler `run_mcmc` of Solutions-04.ipynb,
  together with the global `ln_likelihood` that its loop body captures;
* the radial-velocity forward model of 05-Radial-Velocity.ipynb
  (`compute_E`, `radial_velocity`, `log_likelihood`).

Numerical values that the notebooks hold in numpy floats are modelled in
exact real arithmetic; the IEEE special values that actually drive the
sampler's control flow (positive and negative infinity, NaN) are kept
explicit in the value domain `RVal`. The numpy random streams are
modelled as explicit input sequences: `noise i` is the vector of
standard-normal draws used at loop iteration `i`, and `urand i` is the
uniform draw `r` of iteration `i`.
-/

namespace BayesAstro

open scoped Classical

/-- Value domain for log-posterior computations: a real number, or one of
the IEEE special values (positive infinity, negative infinity,
not-a-number) that the notebook's numpy floats can take. -/
inductive RVal where
  | fin : ℝ → RVal
  | pinf : RVal
  | ninf : RVal
  | nan : RVal

/-- Subtraction on `RVal` with the IEEE semantics numpy uses:
`inf - inf` and `(-inf) - (-inf)` are NaN, and NaN propagates. -/
def RVal.sub : RVal → RVal → RVal
  | .fin a, .fin b => .fin (a - b)
  | .fin _, .pinf => .ninf
  | .fin _, .ninf => .pinf
  | .pinf, .fin _ => .pinf
  | .ninf, .fin _ => .ninf
  | .pinf, .pinf => .nan
  | .ninf, .ninf => .nan
  | .pinf, .ninf => .pinf
  | .ninf, .pinf => .ninf
  | .nan, _ => .nan
  | _, .nan => .nan

/-- Strict greater-than on `RVal` with IEEE comparison semantics: every
comparison involving NaN is false, negative infinity is below and
positive infinity above every finite value, and an infinity is not
greater than itself. -/
def RVal.Gt : RVal → RVal → Prop
  | .fin a, .fin b => b < a
  | .fin _, .ninf => True
  | .pinf, .fin _ => True
  | .pinf, .ninf => True
  | _, _ => False

/-- Logarithm as numpy computes it on the sampler's uniform draw:
`np.log 0` is negative infinity, the logarithm of a negative number is
NaN, and otherwise it is the real logarithm. -/
noncomputable def npLog (r : ℝ) : RVal :=
  if r = 0 then .ninf else if r < 0 then .nan else .fin (Real.log r)

/-- One row of the sampler's state after iteration `i`: the current
parameter vector `chain[i]` and its cached log value `log_likes[i]`. -/
abbrev MHState (D : ℕ) := (Fin D → ℝ) × RVal

/-- Loop body of `run_mcmc` (Solutions-04.ipynb): propose
`theta_new = chain[i-1] + stepsize * randn(ndim)`, evaluate the global
`ln_likelihood` at the proposal, form `log_p_accept`, and accept exactly
when `log_p_accept > np.log r`; otherwise repeat the previous row.
`lnlike` is the global `ln_likelihood` binding that the loop body
references (not the `ln_posterior` parameter). -/
noncomputable def mcmcStep {D : ℕ} {α : Type} (lnlike : (Fin D → ℝ) → α → RVal)
    (args : α) (stepsize : ℝ) (noise : Fin D → ℝ) (r : ℝ) (s : MHState D) : MHState D :=
  let thetaNew : Fin D → ℝ := fun j => s.1 j + stepsize * noise j
  let logLikeNew := lnlike thetaNew args
  let logPAccept := RVal.sub logLikeNew s.2
  if RVal.Gt logPAccept (npLog r) then (thetaNew, logLikeNew) else s

/-- Sampler state after iteration `i`, i.e. the pair
`(chain[i], log_likes[i])` maintained by `run_mcmc`. Row 0 is
`theta0` with the passed `ln_posterior` evaluated there; every later
row is produced by `mcmcStep`. -/
noncomputable def mcmcState {D : ℕ} {α : Type}
    (lnpost lnlike : (Fin D → ℝ) → α → RVal) (theta0 : Fin D → ℝ)
    (stepsize : ℝ) (args : α) (noise : ℕ → Fin D → ℝ) (urand : ℕ → ℝ) :
    ℕ → MHState D
  | 0 => (theta0, lnpost theta0 args)
  | i + 1 => mcmcStep lnlike args stepsize (noise (i + 1)) (urand (i + 1))
      (mcmcState lnpost lnlike theta0 stepsize args noise urand i)

/-- The `chain` array of `run_mcmc`: row `i` is `chain[i]`, for
`0 ≤ i < nsteps`. -/
noncomputable def mcmcChain {D : ℕ} {α : Type}
    (lnpost lnlike : (Fin D → ℝ) → α → RVal) (theta0 : Fin D → ℝ)
    (stepsize : ℝ) (args : α) (noise : ℕ → Fin D → ℝ) (urand : ℕ → ℝ)
    (nsteps : ℕ) : List (Fin D → ℝ) :=
  (List.range nsteps).map fun i =>
    (mcmcState lnpost lnlike theta0 stepsize args noise urand i).1

/-- The `log_likes` array of `run_mcmc`: entry `i` is `log_likes[i]`,
for `0 ≤ i < nsteps`. -/
noncomputable def mcmcLogLikes {D : ℕ} {α : Type}
    (lnpost lnlike : (Fin D → ℝ) → α → RVal) (theta0 : Fin D → ℝ)
    (stepsize : ℝ) (args : α) (noise : ℕ → Fin D → ℝ) (urand : ℕ → ℝ)
    (nsteps : ℕ) : List RVal :=
  (List.range nsteps).map fun i =>
    (mcmcState lnpost lnlike theta0 stepsize args noise urand i).2

/-- Shape of the value `run_mcmc` hands back to its caller: either the
chain array alone, or a 2-tuple of the chain and the log-value
sequence. -/
inductive MCMCResult (D : ℕ) where
  | chainOnly : List (Fin D → ℝ) → MCMCResult D
  | pair : List (Fin D → ℝ) → List RVal → MCMCResult D

/-- Entry point `run_mcmc(ln_posterior, nsteps, ndim, theta0, stepsize,
args)` of Solutions-04.ipynb (`ndim` is the implicit `D`). The trailing
parameters model the environment of the call: `lnlike` is the global
`ln_likelihood` the loop body closes over, and `noise`, `urand` are the
numpy random streams. The source ends with `return chain`. -/
noncomputable def run_mcmc {D : ℕ} {α : Type}
    (lnpost : (Fin D → ℝ) → α → RVal) (nsteps : ℕ) (theta0 : Fin D → ℝ)
    (stepsize : ℝ) (args : α) (lnlike : (Fin D → ℝ) → α → RVal)
    (noise : ℕ → Fin D → ℝ) (urand : ℕ → ℝ) : MCMCResult D :=
  .chainOnly (mcmcChain lnpost lnlike theta0 stepsize args noise urand nsteps)

/-- Angle of the point `(x, y)` in the plane, modelling `np.arctan2 y x`
in exact real arithmetic: the argument of the complex number with real
part `x` and imaginary part `y`, with range `(-π, π]` and value 0 at the
origin, exactly as numpy's arctan2 behaves on reals. -/
noncomputable def arctan2 (y x : ℝ) : ℝ :=
  Complex.arg (Complex.mk x y)

/-- Kepler residual `f(E) = E - e * sin E - M`, the lambda that
`compute_E` hands to the root-finder. -/
noncomputable def keplerF (e M E : ℝ) : ℝ := E - e * Real.sin E - M

/-- Function `compute_E M e` of 05-Radial-Velocity.ipynb: solve Kepler's
equation for the eccentric anomaly. The source calls
`optimize.brentq(f, 0, 2 * np.pi)`; the external root-finder is modelled
by its contract, idealised to exact arithmetic: it returns a root of
`keplerF e M` inside the bracket `[0, 2π]` when one exists (and `brentq`
raises otherwise, modelled by a junk value 0). -/
noncomputable def compute_E (M e : ℝ) : ℝ :=
  if h : ∃ E ∈ Set.Icc (0 : ℝ) (2 * Real.pi), keplerF e M E = 0 then h.choose else 0

/-- Function `radial_velocity t theta` of 05-Radial-Velocity.ipynb for a
scalar time `t`: unpack `T, e, K, V, omega, chi = theta[:6]`, form the
mean anomaly `M = 2π * ((t / T + chi) % 1)`, solve for the eccentric
anomaly, form the true anomaly with arctan2, and return
`V - K * (sin (f + omega) + e * sin omega)`. -/
noncomputable def radial_velocity (t : ℝ) (theta : Fin 7 → ℝ) : ℝ :=
  let T := theta 0
  let e := theta 1
  let K := theta 2
  let V := theta 3
  let omega := theta 4
  let chi := theta 5
  let M := 2 * Real.pi * Int.fract (t / T + chi)
  let E := compute_E M e
  let f := 2 * arctan2 (Real.sqrt (1 + e) * Real.sin (E / 2))
      (Real.sqrt (1 - e) * Real.cos (E / 2))
  V - K * (Real.sin (f + omega) + e * Real.sin omega)

/-- Function `radial_velocity ts theta` of 05-Radial-Velocity.ipynb when
the time argument is an array: each numpy operation of the body acts
elementwise (`compute_E` is wrapped in `np.vectorize`), so each stage is
a map over the list of times. -/
noncomputable def radial_velocity_vec (ts : List ℝ) (theta : Fin 7 → ℝ) : List ℝ :=
  let T := theta 0
  let e := theta 1
  let K := theta 2
  let V := theta 3
  let omega := theta 4
  let chi := theta 5
  let Ms := ts.map fun t => 2 * Real.pi * Int.fract (t / T + chi)
  let Es := Ms.map fun M => compute_E M e
  let fs := Es.map fun E => 2 * arctan2 (Real.sqrt (1 + e) * Real.sin (E / 2))
      (Real.sqrt (1 - e) * Real.cos (E / 2))
  fs.map fun f => V - K * (Real.sin (f + omega) + e * Real.sin omega)

/-- Function `log_likelihood theta t rv rv_err` of
05-Radial-Velocity.ipynb: `sq_err = rv_err ** 2 + theta[6] ** 2`
elementwise, `rv_model = radial_velocity t theta` on the array of times,
then `-0.5 * np.sum(np.log sq_err + (rv - rv_model) ** 2 / sq_err)`. -/
noncomputable def log_likelihood (theta : Fin 7 → ℝ) (t rv rv_err : List ℝ) : ℝ :=
  let sq_err := rv_err.map fun u => u ^ 2 + theta 6 ^ 2
  let rv_model := radial_velocity_vec t theta
  (-0.5) * (List.zipWith (fun p se => Real.log se + (p.1 - p.2) ^ 2 / se)
      (rv.zip rv_model) sq_err).sum

/-- Per-point form of the radial-velocity log-likelihood, without the 2π
factor: the sum over observation triples of
`-1/2 * (log (sigma^2 + s^2) + (y - v)^2 / (sigma^2 + s^2))` with `v` the
scalar forward model at that time. -/
noncomputable def log_likelihood_pointwise (theta : Fin 7 → ℝ) (t rv rv_err : List ℝ) : ℝ :=
  ((t.zip (rv.zip rv_err)).map fun p =>
    -(1 / 2) * (Real.log (p.2.2 ^ 2 + theta 6 ^ 2) +
      (p.2.1 - radial_velocity p.1 theta) ^ 2 / (p.2.2 ^ 2 + theta 6 ^ 2))).sum

/-- Log-likelihood exactly as the specification words it: the sum over
points of `-1/2 * (log (2π * (sigma^2 + s^2)) + (y - v)^2 /
(sigma^2 + s^2))`, with the 2π factor inside the logarithm. Stated for
comparison against `log_likelihood`, which is read off the source. -/
noncomputable def log_likelihood_spec (theta : Fin 7 → ℝ) (t rv rv_err : List ℝ) : ℝ :=
  ((t.zip (rv.zip rv_err)).map fun p =>
    -(1 / 2) * (Real.log (2 * Real.pi * (p.2.2 ^ 2 + theta 6 ^ 2)) +
      (p.2.1 - radial_velocity p.1 theta) ^ 2 / (p.2.2 ^ 2 + theta 6 ^ 2))).sum

section Sampler

variable {D : ℕ} {α : Type} (lnpost lnlike : (Fin D → ℝ) → α → RVal)
  (theta0 : Fin D → ℝ) (stepsize : ℝ) (args : α)
  (noise : ℕ → Fin D → ℝ) (urand : ℕ → ℝ)

/-- The proposal `theta_new` formed at loop iteration `i + 1`:
`chain[i] + stepsize * randn(ndim)`. -/
noncomputable def mcmcProposal (i : ℕ) : Fin D → ℝ :=
  fun j => (mcmcState lnpost lnlike theta0 stepsize args noise urand i).1 j +
    stepsize * noise (i + 1) j

theorem mcmcState_succ (i : ℕ) :
    mcmcState lnpost lnlike theta0 stepsize args noise urand (i + 1) =
      if RVal.Gt
          (RVal.sub (lnlike (mcmcProposal lnpost lnlike theta0 stepsize args noise urand i) args)
            (mcmcState lnpost lnlike theta0 stepsize args noise urand i).2)
          (npLog (urand (i + 1)))
      then (mcmcProposal lnpost lnlike theta0 stepsize args noise urand i,
            lnlike (mcmcProposal lnpost lnlike theta0 stepsize args noise urand i) args)
      else mcmcState lnpost lnlike theta0 stepsize args noise urand i := by
  rfl

theorem mcmcChain_length (nsteps : ℕ) :
    (mcmcChain lnpost lnlike theta0 stepsize args noise urand nsteps).length = nsteps := by
  simp [mcmcChain]

theorem mcmcLogLikes_length (nsteps : ℕ) :
    (mcmcLogLikes lnpost lnlike theta0 stepsize args noise urand nsteps).length = nsteps := by
  simp [mcmcLogLikes]

theorem mcmcChain_head (n : ℕ) :
    (mcmcChain lnpost lnlike theta0 stepsize args noise urand (n + 1)).head? = some theta0 := by
  simp [mcmcChain, List.range_succ_eq_map, mcmcState]

theorem mcmcLogLikes_head (n : ℕ) :
    (mcmcLogLikes lnpost lnlike theta0 stepsize args noise urand (n + 1)).head? =
      some (lnpost theta0 args) := by
  simp [mcmcLogLikes, List.range_succ_eq_map, mcmcState]

/-- C1: the claim that `run_mcmc` hands back a pair of the chain and the
log-value sequence is false on the source: at this concrete call (one
step, one dimension, constant log functions) the returned value is the
chain alone, by the final `return chain`. -/
theorem run_mcmc_pair_cex :
    ¬ ∃ c l, run_mcmc (fun _ _ => RVal.fin 0) 1 ((fun _ => (0 : ℝ)) : Fin 1 → ℝ) 1 ()
        (fun _ _ => RVal.fin 0) (fun _ _ => 1) (fun _ => 1 / 2) = MCMCResult.pair c l := by
  rintro ⟨c, l, h⟩
  simp [run_mcmc] at h

/-- C1 (amended): for every call with `nsteps ≥ 1`, `run_mcmc` returns
the chain alone, of length `nsteps`; the parallel log-value sequence is
maintained internally, also with length `nsteps`, but is not part of the
returned value. -/
theorem run_mcmc_returns_chain (nsteps : ℕ) (hn : 1 ≤ nsteps) :
    ∃ c, run_mcmc lnpost nsteps theta0 stepsize args lnlike noise urand =
        MCMCResult.chainOnly c ∧ c.length = nsteps ∧
      (mcmcLogLikes lnpost lnlike theta0 stepsize args noise urand nsteps).length = nsteps := by
  exact ⟨_, rfl, mcmcChain_length lnpost lnlike theta0 stepsize args noise urand nsteps,
    mcmcLogLikes_length lnpost lnlike theta0 stepsize args noise urand nsteps⟩

/-- Witness for C1 at a concrete call with `nsteps = 2`. -/
theorem run_mcmc_returns_chain_witness :
    ∃ c, run_mcmc (fun _ _ => RVal.fin 0) 2 ((fun _ => (0 : ℝ)) : Fin 1 → ℝ) 1 ()
        (fun _ _ => RVal.fin 0) (fun _ _ => 1) (fun _ => 1 / 2) =
        MCMCResult.chainOnly c ∧ c.length = 2 ∧
      (mcmcLogLikes (fun _ _ => RVal.fin 0) (fun _ _ => RVal.fin 0)
        ((fun _ => (0 : ℝ)) : Fin 1 → ℝ) 1 () (fun _ _ => 1) (fun _ => 1 / 2) 2).length = 2 :=
  run_mcmc_returns_chain (fun _ _ => RVal.fin 0) (fun _ _ => RVal.fin 0)
    ((fun _ => (0 : ℝ)) : Fin 1 → ℝ) 1 () (fun _ _ => 1) (fun _ => 1 / 2) 2 (by norm_num)

/-- C3: for every run with `nsteps ≥ 1`, the chain and the log-value
sequence both have length `nsteps`, the chain starts at `theta0`, and
the log-value sequence starts at the supplied log-posterior evaluated at
`theta0`. -/
theorem mcmc_chain_invariant (nsteps : ℕ) (hn : 1 ≤ nsteps) :
    (mcmcChain lnpost lnlike theta0 stepsize args noise urand nsteps).length = nsteps ∧
      (mcmcLogLikes lnpost lnlike theta0 stepsize args noise urand nsteps).length = nsteps ∧
      (mcmcChain lnpost lnlike theta0 stepsize args noise urand nsteps).head? = some theta0 ∧
      (mcmcLogLikes lnpost lnlike theta0 stepsize args noise urand nsteps).head? =
        some (lnpost theta0 args) := by
  obtain ⟨n, rfl⟩ : ∃ n, nsteps = n + 1 := ⟨nsteps - 1, (Nat.succ_pred_eq_of_pos hn).symm⟩
  exact ⟨mcmcChain_length lnpost lnlike theta0 stepsize args noise urand _,
    mcmcLogLikes_length lnpost lnlike theta0 stepsize args noise urand _,
    mcmcChain_head lnpost lnlike theta0 stepsize args noise urand n,
    mcmcLogLikes_head lnpost lnlike theta0 stepsize args noise urand n⟩

/-- Witness for C3 at a concrete run with `nsteps = 3`. -/
theorem mcmc_chain_invariant_witness :
    (mcmcChain (fun _ _ => RVal.fin 0) (fun _ _ => RVal.fin 0)
        ((fun _ => (0 : ℝ)) : Fin 1 → ℝ) 1 () (fun _ _ => 1) (fun _ => 1 / 2) 3).length = 3 ∧
      (mcmcLogLikes (fun _ _ => RVal.fin 0) (fun _ _ => RVal.fin 0)
        ((fun _ => (0 : ℝ)) : Fin 1 → ℝ) 1 () (fun _ _ => 1) (fun _ => 1 / 2) 3).length = 3 ∧
      (mcmcChain (fun _ _ => RVal.fin 0) (fun _ _ => RVal.fin 0)
        ((fun _ => (0 : ℝ)) : Fin 1 → ℝ) 1 () (fun _ _ => 1) (fun _ => 1 / 2) 3).head? =
        some ((fun _ => (0 : ℝ)) : Fin 1 → ℝ) ∧
      (mcmcLogLikes (fun _ _ => RVal.fin 0) (fun _ _ => RVal.fin 0)
        ((fun _ => (0 : ℝ)) : Fin 1 → ℝ) 1 () (fun _ _ => 1) (fun _ => 1 / 2) 3).head? =
        some ((fun _ _ => RVal.fin 0) ((fun _ => (0 : ℝ)) : Fin 1 → ℝ) ()) :=
  mcmc_chain_invariant (fun _ _ => RVal.fin 0) (fun _ _ => RVal.fin 0)
    ((fun _ => (0 : ℝ)) : Fin 1 → ℝ) 1 () (fun _ _ => 1) (fun _ => 1 / 2) 3 (by norm_num)

/-- C2 fails on the code: the loop body computes
`log_like_new = ln_likelihood(theta_new, *args)` through the global name
`ln_likelihood`, not through the `ln_posterior` parameter that
initialises entry 0. At this concrete call the supplied log-posterior is
constantly 0 while the global `ln_likelihood` is constantly -1, the
uniform draw is 0 so the step accepts, and the log value recorded for
step 1 is the global function's value at the proposal, which differs
from the supplied function's value there. -/
theorem mcmc_wrong_function_at_candidate :
    (mcmcState (fun _ _ => RVal.fin 0) (fun _ _ => RVal.fin (-1))
          ((fun _ => (0 : ℝ)) : Fin 1 → ℝ) 1 () (fun _ _ => 1) (fun _ => 0) 1).2 =
        (fun _ _ => RVal.fin (-1))
          (mcmcProposal (fun _ _ => RVal.fin 0) (fun _ _ => RVal.fin (-1))
            ((fun _ => (0 : ℝ)) : Fin 1 → ℝ) 1 () (fun _ _ => 1) (fun _ => 0) 0) () ∧
      (mcmcState (fun _ _ => RVal.fin 0) (fun _ _ => RVal.fin (-1))
          ((fun _ => (0 : ℝ)) : Fin 1 → ℝ) 1 () (fun _ _ => 1) (fun _ => 0) 1).2 ≠
        (fun _ _ => RVal.fin 0)
          (mcmcProposal (fun _ _ => RVal.fin 0) (fun _ _ => RVal.fin (-1))
            ((fun _ => (0 : ℝ)) : Fin 1 → ℝ) 1 () (fun _ _ => 1) (fun _ => 0) 0) () := by
  constructor
  · rw [mcmcState_succ]
    rw [if_pos]
    show RVal.Gt (RVal.sub (RVal.fin (-1)) (RVal.fin 0)) (npLog 0)
    simp [npLog, RVal.sub, RVal.Gt]
  · rw [mcmcState_succ, if_pos]
    · simp
    · show RVal.Gt (RVal.sub (RVal.fin (-1)) (RVal.fin 0)) (npLog 0)
      simp [npLog, RVal.sub, RVal.Gt]

/-- C4: at each step the sampler accepts the candidate exactly when the
log acceptance value is greater (in IEEE order) than the logarithm of
the uniform draw; on rejection the previous row is repeated; and when
both the candidate's and the current log value are finite with the
candidate at least as large, the comparison always holds for a draw in
`[0, 1)`, so the candidate is always accepted. -/
theorem mcmc_accept_rule (i : ℕ) :
    (RVal.Gt
        (RVal.sub (lnlike (mcmcProposal lnpost lnlike theta0 stepsize args noise urand i) args)
          (mcmcState lnpost lnlike theta0 stepsize args noise urand i).2)
        (npLog (urand (i + 1))) →
      mcmcState lnpost lnlike theta0 stepsize args noise urand (i + 1) =
        (mcmcProposal lnpost lnlike theta0 stepsize args noise urand i,
          lnlike (mcmcProposal lnpost lnlike theta0 stepsize args noise urand i) args)) ∧
    (¬ RVal.Gt
        (RVal.sub (lnlike (mcmcProposal lnpost lnlike theta0 stepsize args noise urand i) args)
          (mcmcState lnpost lnlike theta0 stepsize args noise urand i).2)
        (npLog (urand (i + 1))) →
      mcmcState lnpost lnlike theta0 stepsize args noise urand (i + 1) =
        mcmcState lnpost lnlike theta0 stepsize args noise urand i) ∧
    (∀ a b : ℝ,
      lnlike (mcmcProposal lnpost lnlike theta0 stepsize args noise urand i) args = RVal.fin a →
      (mcmcState lnpost lnlike theta0 stepsize args noise urand i).2 = RVal.fin b →
      b ≤ a → 0 ≤ urand (i + 1) → urand (i + 1) < 1 →
      RVal.Gt
        (RVal.sub (lnlike (mcmcProposal lnpost lnlike theta0 stepsize args noise urand i) args)
          (mcmcState lnpost lnlike theta0 stepsize args noise urand i).2)
        (npLog (urand (i + 1)))) := by
  refine ⟨fun h => ?_, fun h => ?_, fun a b ha hb hab hr0 hr1 => ?_⟩
  · rw [mcmcState_succ, if_pos h]
  · rw [mcmcState_succ, if_neg h]
  · rw [ha, hb]
    by_cases h0 : urand (i + 1) = 0
    · simp [npLog, h0, RVal.sub, RVal.Gt]
    · have hpos : 0 < urand (i + 1) := lt_of_le_of_ne hr0 (Ne.symm h0)
      have hlog : Real.log (urand (i + 1)) < 0 := Real.log_neg hpos hr1
      simp only [npLog, h0, if_false, if_neg (not_lt.mpr hr0)]
      show Real.log (urand (i + 1)) < a - b
      linarith

/-- Witness for C4: a concrete step with both log values finite and
equal, and uniform draw 1/2, where the candidate is accepted. -/
theorem mcmc_accept_rule_witness :
    mcmcState (fun _ _ => RVal.fin 0) (fun _ _ => RVal.fin 0)
        ((fun _ => (0 : ℝ)) : Fin 1 → ℝ) 1 () (fun _ _ => 1) (fun _ => 1 / 2) 1 =
      (mcmcProposal (fun _ _ => RVal.fin 0) (fun _ _ => RVal.fin 0)
          ((fun _ => (0 : ℝ)) : Fin 1 → ℝ) 1 () (fun _ _ => 1) (fun _ => 1 / 2) 0,
        RVal.fin 0) :=
  (mcmc_accept_rule (fun _ _ => RVal.fin 0) (fun _ _ => RVal.fin 0)
      ((fun _ => (0 : ℝ)) : Fin 1 → ℝ) 1 () (fun _ _ => 1) (fun _ => 1 / 2) 0).1
    ((mcmc_accept_rule (fun _ _ => RVal.fin 0) (fun _ _ => RVal.fin 0)
      ((fun _ => (0 : ℝ)) : Fin 1 → ℝ) 1 () (fun _ _ => 1) (fun _ => 1 / 2) 0).2.2 0 0
      rfl rfl le_rfl (by norm_num) (by norm_num))

/-- C5 fails on the code in the both-negative-infinity tie: here the
current log value and the candidate's log value are both negative
infinity, so `log_p_accept` is NaN, the comparison with `np.log r` is
false, and the sampler repeats the previous state instead of accepting
the candidate; the candidate differs from the repeated vector. -/
theorem mcmc_ninf_tie_cex :
    (mcmcState (fun _ _ => RVal.ninf) (fun _ _ => RVal.ninf)
          ((fun _ => (0 : ℝ)) : Fin 1 → ℝ) 1 () (fun _ _ => 1) (fun _ => 1 / 2) 0).2 =
        RVal.ninf ∧
      (fun _ _ => RVal.ninf)
          (mcmcProposal (fun _ _ => RVal.ninf) (fun _ _ => RVal.ninf)
            ((fun _ => (0 : ℝ)) : Fin 1 → ℝ) 1 () (fun _ _ => 1) (fun _ => 1 / 2) 0) () =
        RVal.ninf ∧
      mcmcState (fun _ _ => RVal.ninf) (fun _ _ => RVal.ninf)
          ((fun _ => (0 : ℝ)) : Fin 1 → ℝ) 1 () (fun _ _ => 1) (fun _ => 1 / 2) 1 =
        mcmcState (fun _ _ => RVal.ninf) (fun _ _ => RVal.ninf)
          ((fun _ => (0 : ℝ)) : Fin 1 → ℝ) 1 () (fun _ _ => 1) (fun _ => 1 / 2) 0 ∧
      (mcmcState (fun _ _ => RVal.ninf) (fun _ _ => RVal.ninf)
          ((fun _ => (0 : ℝ)) : Fin 1 → ℝ) 1 () (fun _ _ => 1) (fun _ => 1 / 2) 1).1 ≠
        mcmcProposal (fun _ _ => RVal.ninf) (fun _ _ => RVal.ninf)
          ((fun _ => (0 : ℝ)) : Fin 1 → ℝ) 1 () (fun _ _ => 1) (fun _ => 1 / 2) 0 := by
  have hrepeat : mcmcState (fun _ _ => RVal.ninf) (fun _ _ => RVal.ninf)
      ((fun _ => (0 : ℝ)) : Fin 1 → ℝ) 1 () (fun _ _ => 1) (fun _ => 1 / 2) 1 =
      mcmcState (fun _ _ => RVal.ninf) (fun _ _ => RVal.ninf)
        ((fun _ => (0 : ℝ)) : Fin 1 → ℝ) 1 () (fun _ _ => 1) (fun _ => 1 / 2) 0 := by
    rw [mcmcState_succ, if_neg]
    show ¬ RVal.Gt (RVal.sub RVal.ninf RVal.ninf) (npLog (1 / 2))
    simp [npLog, RVal.sub, RVal.Gt]
  refine ⟨rfl, rfl, hrepeat, ?_⟩
  rw [hrepeat]
  intro h
  have h0 := congrFun h 0
  simp [mcmcState, mcmcProposal] at h0

/-- C5 (amended): when the current log value is negative infinity and
the uniform draw is nonnegative, a candidate with a finite log value is
always accepted, but a candidate whose log value is also negative
infinity is rejected (the difference is NaN and the comparison is
false), so the sampler repeats the previous state in the tie. -/
theorem mcmc_ninf_current (i : ℕ)
    (hcur : (mcmcState lnpost lnlike theta0 stepsize args noise urand i).2 = RVal.ninf)
    (hr : 0 ≤ urand (i + 1)) :
    (∀ a : ℝ,
      lnlike (mcmcProposal lnpost lnlike theta0 stepsize args noise urand i) args = RVal.fin a →
      mcmcState lnpost lnlike theta0 stepsize args noise urand (i + 1) =
        (mcmcProposal lnpost lnlike theta0 stepsize args noise urand i, RVal.fin a)) ∧
    (lnlike (mcmcProposal lnpost lnlike theta0 stepsize args noise urand i) args = RVal.ninf →
      mcmcState lnpost lnlike theta0 stepsize args noise urand (i + 1) =
        mcmcState lnpost lnlike theta0 stepsize args noise urand i) := by
  constructor
  · intro a ha
    rw [mcmcState_succ, ha, hcur, if_pos]
    by_cases h0 : urand (i + 1) = 0
    · simp [npLog, h0, RVal.sub, RVal.Gt]
    · simp [npLog, h0, if_neg (not_lt.mpr hr), RVal.sub, RVal.Gt]
  · intro ha
    rw [mcmcState_succ, ha, hcur, if_neg]
    simp [RVal.sub, RVal.Gt]

/-- Witness for C5 (amended), rejection half: a concrete step in the
both-negative-infinity tie where the previous state is repeated. -/
theorem mcmc_ninf_current_witness :
    mcmcState (fun _ _ => RVal.ninf) (fun _ _ => RVal.ninf)
        ((fun _ => (0 : ℝ)) : Fin 1 → ℝ) 1 () (fun _ _ => 1) (fun _ => 1 / 2) 1 =
      mcmcState (fun _ _ => RVal.ninf) (fun _ _ => RVal.ninf)
        ((fun _ => (0 : ℝ)) : Fin 1 → ℝ) 1 () (fun _ _ => 1) (fun _ => 1 / 2) 0 :=
  (mcmc_ninf_current (fun _ _ => RVal.ninf) (fun _ _ => RVal.ninf)
      ((fun _ => (0 : ℝ)) : Fin 1 → ℝ) 1 () (fun _ _ => 1) (fun _ => 1 / 2) 0
      rfl (by norm_num)).2 rfl

/-- C10: when the uniform draw of a step is exactly 0, its logarithm is
negative infinity, so any candidate whose log acceptance value is a
finite real number is accepted unconditionally. -/
theorem mcmc_rand_zero_accepts (i : ℕ) (hr : urand (i + 1) = 0) (d : ℝ)
    (hd : RVal.sub (lnlike (mcmcProposal lnpost lnlike theta0 stepsize args noise urand i) args)
        (mcmcState lnpost lnlike theta0 stepsize args noise urand i).2 = RVal.fin d) :
    mcmcState lnpost lnlike theta0 stepsize args noise urand (i + 1) =
      (mcmcProposal lnpost lnlike theta0 stepsize args noise urand i,
        lnlike (mcmcProposal lnpost lnlike theta0 stepsize args noise urand i) args) := by
  rw [mcmcState_succ, hd, hr, if_pos]
  simp [npLog, RVal.Gt]

/-- Witness for C10: a concrete step with uniform draw 0 and finite log
acceptance value, where the candidate is accepted. -/
theorem mcmc_rand_zero_accepts_witness :
    mcmcState (fun _ _ => RVal.fin 0) (fun _ _ => RVal.fin 0)
        ((fun _ => (0 : ℝ)) : Fin 1 → ℝ) 1 () (fun _ _ => 1) (fun _ => 0) 1 =
      (mcmcProposal (fun _ _ => RVal.fin 0) (fun _ _ => RVal.fin 0)
          ((fun _ => (0 : ℝ)) : Fin 1 → ℝ) 1 () (fun _ _ => 1) (fun _ => 0) 0,
        RVal.fin 0) :=
  mcmc_rand_zero_accepts (fun _ _ => RVal.fin 0) (fun _ _ => RVal.fin 0)
    ((fun _ => (0 : ℝ)) : Fin 1 → ℝ) 1 () (fun _ _ => 1) (fun _ => 0) 0 rfl 0
    (by norm_num [mcmcState, RVal.sub])

end Sampler

theorem keplerF_continuous (e M : ℝ) : Continuous (keplerF e M) := by
  unfold keplerF
  fun_prop

/-- The bracket `[0, 2π]` always contains a root of the Kepler residual
when `0 ≤ M ≤ 2π`, since the residual is `-M` at 0 and `2π - M` at
`2π`. -/
theorem kepler_root_exists (e M : ℝ) (h0 : 0 ≤ M) (h1 : M ≤ 2 * Real.pi) :
    ∃ E ∈ Set.Icc (0 : ℝ) (2 * Real.pi), keplerF e M E = 0 := by
  have hc : ContinuousOn (keplerF e M) (Set.Icc 0 (2 * Real.pi)) :=
    (keplerF_continuous e M).continuousOn
  have hab : (0 : ℝ) ≤ 2 * Real.pi := Real.two_pi_pos.le
  have hsub := intermediate_value_Icc hab hc
  have hlo : keplerF e M 0 = -M := by simp [keplerF]
  have hhi : keplerF e M (2 * Real.pi) = 2 * Real.pi - M := by
    simp [keplerF, Real.sin_two_pi]
  have hmem : (0 : ℝ) ∈ Set.Icc (keplerF e M 0) (keplerF e M (2 * Real.pi)) := by
    rw [hlo, hhi]
    constructor <;> linarith
  obtain ⟨E, hE, hfE⟩ := hsub hmem
  exact ⟨E, hE, hfE⟩

/-- C6: for every eccentricity in `[0, 1)` and mean anomaly in
`[0, 2π)`, `compute_E` returns an eccentric anomaly in `[0, 2π]` that
solves Kepler's equation `E - e * sin E = M` (the external root-finder
idealised to exact arithmetic), and the bracketing endpoints are valid:
the residual is `-M ≤ 0` at 0 and `2π - M ≥ 0` at `2π`. -/
theorem compute_E_solves (M e : ℝ) (he0 : 0 ≤ e) (he1 : e < 1)
    (hM0 : 0 ≤ M) (hM1 : M < 2 * Real.pi) :
    compute_E M e ∈ Set.Icc (0 : ℝ) (2 * Real.pi) ∧
      compute_E M e - e * Real.sin (compute_E M e) = M ∧
      keplerF e M 0 = -M ∧ keplerF e M 0 ≤ 0 ∧
      keplerF e M (2 * Real.pi) = 2 * Real.pi - M ∧ 0 ≤ keplerF e M (2 * Real.pi) := by
  have hex := kepler_root_exists e M hM0 hM1.le
  have hEeq : compute_E M e = hex.choose := by
    simp only [compute_E, dif_pos hex]
  have hspec := hex.choose_spec
  have hlo : keplerF e M 0 = -M := by simp [keplerF]
  have hhi : keplerF e M (2 * Real.pi) = 2 * Real.pi - M := by
    simp [keplerF, Real.sin_two_pi]
  refine ⟨hEeq ▸ hspec.1, ?_, hlo, by rw [hlo]; linarith, hhi, by rw [hhi]; linarith⟩
  have hroot := hspec.2
  simp only [keplerF] at hroot
  rw [hEeq]
  linarith

/-- Witness for C6 at `M = 0`, `e = 0`. -/
theorem compute_E_solves_witness :
    compute_E 0 0 ∈ Set.Icc (0 : ℝ) (2 * Real.pi) ∧
      compute_E 0 0 - 0 * Real.sin (compute_E 0 0) = 0 ∧
      keplerF 0 0 0 = -0 ∧ keplerF 0 0 0 ≤ 0 ∧
      keplerF 0 0 (2 * Real.pi) = 2 * Real.pi - 0 ∧ 0 ≤ keplerF 0 0 (2 * Real.pi) :=
  compute_E_solves 0 0 le_rfl one_pos le_rfl Real.two_pi_pos

/-- Angle recovery for arctan2 on the unit circle: for `u` in
`(-π, π]`, the angle of `(cos u, sin u)` is `u` itself. -/
theorem arctan2_sin_cos {u : ℝ} (hu : u ∈ Set.Ioc (-Real.pi) Real.pi) :
    arctan2 (Real.sin u) (Real.cos u) = u := by
  unfold arctan2
  rw [Complex.mk_eq_add_mul_I, Complex.ofReal_cos, Complex.ofReal_sin]
  exact Complex.arg_cos_add_sin_mul_I hu

/-- With zero eccentricity the chosen root of Kepler's equation is the
mean anomaly itself. -/
theorem compute_E_zero_ecc (M : ℝ) (hM0 : 0 ≤ M) (hM1 : M ≤ 2 * Real.pi) :
    compute_E M 0 = M := by
  have hex := kepler_root_exists 0 M hM0 hM1
  have hEeq : compute_E M 0 = hex.choose := by
    simp only [compute_E, dif_pos hex]
  have hroot : hex.choose - 0 * Real.sin hex.choose - M = 0 := hex.choose_spec.2
  rw [zero_mul, sub_zero] at hroot
  rw [hEeq]
  linarith

/-- C7: for a parameter vector with zero eccentricity and positive
period, the predicted radial velocity is exactly
`V - K * sin (M + omega)` with `M = 2π * ((t / T + chi) mod 1)`: the
eccentricity correction vanishes and the Kepler step is the identity. -/
theorem radial_velocity_circular (t : ℝ) (theta : Fin 7 → ℝ)
    (he : theta 1 = 0) (hT : 0 < theta 0) :
    radial_velocity t theta =
      theta 3 - theta 2 *
        Real.sin (2 * Real.pi * Int.fract (t / theta 0 + theta 5) + theta 4) := by
  have hf0 := Int.fract_nonneg (t / theta 0 + theta 5)
  have hf1 := Int.fract_lt_one (t / theta 0 + theta 5)
  have hM0 : 0 ≤ 2 * Real.pi * Int.fract (t / theta 0 + theta 5) :=
    mul_nonneg Real.two_pi_pos.le hf0
  have hM1 : 2 * Real.pi * Int.fract (t / theta 0 + theta 5) < 2 * Real.pi := by
    nlinarith [Real.two_pi_pos]
  have hE := compute_E_zero_ecc (2 * Real.pi * Int.fract (t / theta 0 + theta 5)) hM0 hM1.le
  have hu : 2 * Real.pi * Int.fract (t / theta 0 + theta 5) / 2 ∈
      Set.Ioc (-Real.pi) Real.pi := by
    constructor
    · have := Real.pi_pos
      linarith
    · linarith
  simp only [radial_velocity, he, add_zero, sub_zero, Real.sqrt_one, one_mul, zero_mul]
  rw [hE, arctan2_sin_cos hu]
  ring_nf

/-- Witness for C7 at `t = 0` with parameters `T=1, e=0, K=1, V=0,
omega=0, chi=0, s=1`. -/
theorem radial_velocity_circular_witness :
    radial_velocity 0 ![1, 0, 1, 0, 0, 0, 1] =
      (![1, 0, 1, 0, 0, 0, 1] : Fin 7 → ℝ) 3 - (![1, 0, 1, 0, 0, 0, 1] : Fin 7 → ℝ) 2 *
        Real.sin (2 * Real.pi *
          Int.fract ((0 : ℝ) / (![1, 0, 1, 0, 0, 0, 1] : Fin 7 → ℝ) 0 +
            (![1, 0, 1, 0, 0, 0, 1] : Fin 7 → ℝ) 5) +
          (![1, 0, 1, 0, 0, 0, 1] : Fin 7 → ℝ) 4) :=
  radial_velocity_circular 0 ![1, 0, 1, 0, 0, 0, 1] (by simp) (by norm_num)

/-- The array form of the forward model is the elementwise map of the
scalar form. -/
theorem radial_velocity_vec_eq_map (ts : List ℝ) (theta : Fin 7 → ℝ) :
    radial_velocity_vec ts theta = ts.map fun t => radial_velocity t theta := by
  simp only [radial_velocity_vec, radial_velocity, List.map_map]
  rfl

/-- C9: the forward model accepts a sequence of times, and on a sequence
it returns exactly the elementwise map of the scalar algorithm over the
sequence. -/
theorem radial_velocity_vec_elementwise (ts : List ℝ) (theta : Fin 7 → ℝ) :
    radial_velocity_vec ts theta = ts.map fun t => radial_velocity t theta :=
  radial_velocity_vec_eq_map ts theta

theorem zip_map_sum (A : ℝ → ℝ → ℝ → ℝ) (F G : ℝ → ℝ) (t : List ℝ) :
    ∀ rv er : List ℝ, rv.length = t.length → er.length = t.length →
      (List.zipWith (fun p se => A p.1 p.2 se) (rv.zip (t.map F)) (er.map G)).sum =
        ((t.zip (rv.zip er)).map fun p => A p.2.1 (F p.1) (G p.2.2)).sum := by
  induction t with
  | nil =>
    intro rv er h1 _
    cases rv with
    | nil => simp
    | cons b rv => simp at h1
  | cons a t ih =>
    intro rv er h1 h2
    cases rv with
    | nil => simp at h1
    | cons b rv =>
      cases er with
      | nil => simp at h2
      | cons c er =>
        simp only [List.map_cons, List.zip_cons_cons, List.zipWith_cons_cons,
          List.sum_cons]
        rw [ih rv er (by simpa using h1) (by simpa using h2)]

theorem sum_map_mul_left_list {β : Type} (c : ℝ) (l : List β) (F : β → ℝ) :
    c * (l.map F).sum = (l.map fun p => c * F p).sum := by
  induction l with
  | nil => simp
  | cons a l ih => simp only [List.map_cons, List.sum_cons, mul_add, ih]

/-- C8 fails on the code: the source computes
`np.log sq_err`, not `np.log (2 * np.pi * sq_err)`, so at a concrete
one-point observation set the log-likelihood differs from the
specification's formula with the 2π factor (the residual terms cancel
and the difference is exactly `log (2π) / 2 ≠ 0`). -/
theorem log_likelihood_two_pi_cex :
    log_likelihood (fun _ => 1) [0] [0] [0] ≠
      log_likelihood_spec (fun _ => 1) [0] [0] [0] := by
  have hv : radial_velocity_vec [0] (fun _ => 1) = [radial_velocity 0 (fun _ => 1)] := by
    rw [radial_velocity_vec_eq_map]
    rfl
  intro h
  simp only [log_likelihood, log_likelihood_spec, hv, List.map_cons, List.map_nil,
    List.zip_cons_cons, List.zip_nil_right, List.zipWith_cons_cons, List.zipWith_nil_right,
    List.sum_cons, List.sum_nil] at h
  have hgt : (1 : ℝ) < 2 * Real.pi := by nlinarith [Real.pi_gt_three]
  have hlog : 0 < Real.log (2 * Real.pi) := Real.log_pos hgt
  norm_num at h
  rcases h with h | h | h
  · exact Real.pi_ne_zero h
  · linarith
  · linarith

/-- C8 (amended): the radial-velocity log-likelihood equals the sum over
observation points of `-1/2 * (log (sigma^2 + s^2) +
(y - v(t))^2 / (sigma^2 + s^2))` with `s = theta[6]` and `v` the scalar
forward model — i.e. the specification's formula without the 2π factor
inside the logarithm. -/
theorem log_likelihood_no_two_pi (theta : Fin 7 → ℝ) (t rv rv_err : List ℝ)
    (h1 : rv.length = t.length) (h2 : rv_err.length = t.length) :
    log_likelihood theta t rv rv_err = log_likelihood_pointwise theta t rv rv_err := by
  simp only [log_likelihood, log_likelihood_pointwise, radial_velocity_vec_eq_map]
  rw [zip_map_sum (fun y v se => Real.log se + (y - v) ^ 2 / se)
    (fun x => radial_velocity x theta) (fun u => u ^ 2 + theta 6 ^ 2) t rv rv_err h1 h2]
  rw [sum_map_mul_left_list]
  congr 1
  apply List.map_congr_left
  intro p _
  norm_num

/-- Witness for C8 (amended) at a concrete one-point observation set. -/
theorem log_likelihood_no_two_pi_witness :
    log_likelihood (fun _ => 1) [0] [0] [0] =
      log_likelihood_pointwise (fun _ => 1) [0] [0] [0] :=
  log_likelihood_no_two_pi (fun _ => 1) [0] [0] [0] rfl rfl

end BayesAstro
